import Mathlib

/-!
Verification of the INI-style configuration reader `src/config/config.go`
of the goweb repository.

The Go code is shallowly embedded: Go strings are modelled as `List Char`
(the code only ever indexes at positions that fall on rune boundaries for
the characters it tests, so the rune model agrees with Go's byte model on
all the comparisons performed), Go maps are modelled as association lists
together with an explicit iteration order parameter (Go map iteration
order is unspecified, so theorems quantify over the order), and runtime
panics (out-of-range indexing or slicing, nil dereference) are an explicit
result constructor.
-/

namespace GowebConfig

/-- Convert a string literal to the character-list model of Go strings. -/
def chars (s : String) : List Char := s.toList

/-- Model of `unicode.IsSpace` restricted to the Latin-1 range, which is what
`strings.TrimSpace` tests byte-wise for ASCII input. -/
def goIsSpace (c : Char) : Bool :=
  c = ' ' || c = '\t' || c = '\n' || c = '\x0b' || c = '\x0c' || c = '\r' ||
  c = '\x85' || c = '\xa0'

/-- Model of `strings.TrimSpace`: drop spaces from both ends. -/
def trimSpace (s : List Char) : List Char :=
  ((s.dropWhile goIsSpace).reverse.dropWhile goIsSpace).reverse

/-- Model of `strings.Index(line, "=")` for a one-character needle:
the index of the first occurrence, or `-1` when absent. -/
def goStringsIndex (s : List Char) (ch : Char) : Int :=
  match s.findIdx? (fun a => a == ch) with
  | some i => (i : Int)
  | none => -1

/-- Lookup in a Go map modelled as an association list. -/
def alLookup {κ α : Type} [DecidableEq κ] : List (κ × α) → κ → Option α
  | [], _ => none
  | (k, v) :: rest, key => if k = key then some v else alLookup rest key

/-- Assignment `m[k] = v` in a Go map modelled as an association list:
replace the entry if the key is present, append it otherwise. -/
def alInsert {κ α : Type} [DecidableEq κ] : List (κ × α) → κ → α → List (κ × α)
  | [], key, val => [(key, val)]
  | (k, v) :: rest, key, val =>
    if k = key then (k, val) :: rest else (k, v) :: alInsert rest key val

/-- The `Section` struct: a named group of key/value fields. -/
structure Section where
  name : List Char
  fields : List (List Char × List Char)
deriving DecidableEq

/-- The `PState` struct: whether a section is active and, via its name,
which section the current-section pointer refers to. (In Go `cur_sec` is a
`*Section` aliasing the entry of the `sections` map with that name; names
are the map keys, so the name identifies the pointee.) -/
structure PState where
  in_sec : Bool
  cur_sec : Option (List Char)
deriving DecidableEq

/-- One result of `bufio.Reader.ReadLine`: no error, end of file, or another
read error. -/
inductive ReadErr where
  | noErr
  | eof
  | fail (msg : String)
deriving DecidableEq

/-- The `Config` struct. `conf_files` maps each path to `none` (a nil
`*os.File`) or to the opened handle, modelled by the stream of
`ReadLine` results the handle will deliver. -/
structure Config where
  conf_files : List (String × Option (List (List Char × ReadErr)))
  sections : List (List Char × Section)
  _pstate : PState
deriving DecidableEq

/-- The `NewSection` constructor. -/
def NewSection (name : List Char) : Section :=
  { name := name, fields := [] }

/-- The `NewConfig` constructor: record every path with a nil handle. -/
def NewConfig (files : List String) : Config :=
  { conf_files := files.foldl (fun m file => alInsert m file none) []
    sections := []
    _pstate := { in_sec := false, cur_sec := none } }

/-- The `ConfLineError` struct. -/
structure ConfLineError where
  line : List Char
  error : String
deriving DecidableEq

/-- Result of `_parse_line`: the Go `(bool, *ConfLineError)` pair together
with the mutated receiver, or a runtime panic. -/
inductive LineResult where
  | ok (c : Config)
  | err (e : ConfLineError)
  | panicked (msg : String)
deriving DecidableEq

/-- Model of the quote-stripping statement of `_parse_line`:

    if value[0] == '"' && value[len(value) - 1] == '"' {
        value = value[1: len(value) - 1]
    }

`none` models a runtime panic: `value[0]` on an empty string is an
index-out-of-range panic, and `value[1:0]` (when the length is 1 and the
single character is a quote) is a slice-bounds panic. -/
def stripQuotes (value : List Char) : Option (List Char) :=
  if value.length = 0 then none
  else if value.get? 0 = some '"' ∧ value.get? (value.length - 1) = some '"' then
    if value.length = 1 then none
    else some ((value.drop 1).take (value.length - 2))
  else some value

/-- Model of `cur_sec.fields[key] = value`: `cur_sec` aliases the entry of
the `sections` map named `sec`, so the assignment updates that entry's
fields in place. -/
def setField : List (List Char × Section) → List Char → List Char → List Char →
    List (List Char × Section)
  | [], _, _, _ => []
  | (k, v) :: rest, sec, key, value =>
    if k = sec then
      (k, { v with fields := alInsert v.fields key value }) :: setField rest sec key value
    else (k, v) :: setField rest sec key value

/-- The `_parse_line` method, translated clause by clause from the source. -/
def _parse_line (c : Config) (line0 : List Char) : LineResult :=
  if line0.length > 0 then
    let line := trimSpace line0
    let line_len := line.length
    if line_len > 0 then
      if line.get? 0 = some '[' ∧ line.get? (line_len - 1) = some ']' then
        let sec_name := (line.drop 1).take (line_len - 2)
        if sec_name.length = 0 then
          .err { line := line, error := "section name cannot be empty" }
        else if (alLookup c.sections sec_name).isSome then
          .ok { c with _pstate := { in_sec := true, cur_sec := some sec_name } }
        else
          .ok { c with
                sections := alInsert c.sections sec_name (NewSection sec_name)
                _pstate := { in_sec := true, cur_sec := some sec_name } }
      else
        let first_equation_pos := goStringsIndex line '='
        if first_equation_pos ≤ 0 then
          .err { line := line, error := "invalid configuration line" }
        else
          let key := trimSpace (line.take first_equation_pos.toNat)
          if key.length = 0 then
            .err { line := line, error := "key cannot be empty" }
          else
            match stripQuotes (trimSpace (line.drop (first_equation_pos.toNat + 1))) with
            | none => .panicked "runtime error: out of range"
            | some value =>
              if !c._pstate.in_sec then
                .err { line := line, error := "configuration line without section" }
              else
                match c._pstate.cur_sec with
                | none => .panicked "runtime error: nil pointer dereference"
                | some cur_sec =>
                  .ok { c with sections := setField c.sections cur_sec key value }
    else
      .ok c
  else
    .ok c

/-- Observation of `_parse_line`: the assignment event (current section,
key, value) the line performs, if any. The guards replicate `_parse_line`;
the value is `some` exactly on the branch that stores a field. -/
def lineAssign (c : Config) (line0 : List Char) :
    Option (List Char × List Char × List Char) :=
  if line0.length > 0 then
    let line := trimSpace line0
    let line_len := line.length
    if line_len > 0 then
      if line.get? 0 = some '[' ∧ line.get? (line_len - 1) = some ']' then none
      else
        let first_equation_pos := goStringsIndex line '='
        if first_equation_pos ≤ 0 then none
        else
          let key := trimSpace (line.take first_equation_pos.toNat)
          if key.length = 0 then none
          else
            match stripQuotes (trimSpace (line.drop (first_equation_pos.toNat + 1))) with
            | none => none
            | some value =>
              if !c._pstate.in_sec then none
              else
                match c._pstate.cur_sec with
                | none => none
                | some cur_sec => some (cur_sec, key, value)
    else none
  else none

/-- Go error values surfaced by `Parse_conf`: a `ConfFileError` wrapping a
line error with its file name, or an I/O error (from `os.Open` or
`ReadLine`), carried as its message. -/
inductive GoError where
  | confFile (fname : String) (e : ConfLineError)
  | ioError (msg : String)
deriving DecidableEq

/-- Result of file-level operations: the Go `(bool, error)` pair, or a
propagated runtime panic. -/
inductive Outcome where
  | ok
  | err (e : GoError)
  | panicked (msg : String)
deriving DecidableEq

/-- Resource events: a file handle being opened or closed. -/
inductive Event where
  | opened (p : String)
  | closed (p : String)
deriving DecidableEq

/-- The `_open_files` method. Go iterates the `conf_files` map in an
unspecified order; the order is the explicit list argument. Each path with
a nil handle is opened (the file system `fs` gives its read stream, `none`
meaning `os.Open` fails); on a failed open the method returns at once.
The result is the Go `(bool, error)` pair (as `Option GoError`), the
mutated receiver, and the trace of open events. -/
def _open_files (fs : String → Option (List (List Char × ReadErr))) :
    Config → List String → Option GoError × Config × List Event
  | c, [] => (none, c, [])
  | c, fpath :: rest =>
    match alLookup c.conf_files fpath with
    | some none =>
      match fs fpath with
      | none => (some (.ioError fpath), c, [])
      | some fobj =>
        let c' := { c with conf_files := alInsert c.conf_files fpath (some fobj) }
        let r := _open_files fs c' rest
        (r.1, r.2.1, .opened fpath :: r.2.2)
    | some (some _) => _open_files fs c rest
    | none => _open_files fs c rest

/-- The read loop of `_parse_file`. Each `ReadLine` result is a line
together with its error; the line is parsed only when the error is nil or
EOF, the loop stops at EOF, and any other error is returned as-is. -/
def _parse_file_loop (fname : String) :
    Config → List (List Char × ReadErr) → Outcome × Config
  | c, [] => (.ok, c)
  | c, (line, rerr) :: rest =>
    match rerr with
    | .fail msg => (.err (.ioError msg), c)
    | .noErr =>
      match _parse_line c line with
      | .err e => (.err (.confFile fname e), c)
      | .panicked msg => (.panicked msg, c)
      | .ok c' => _parse_file_loop fname c' rest
    | .eof =>
      match _parse_line c line with
      | .err e => (.err (.confFile fname e), c)
      | .panicked msg => (.panicked msg, c)
      | .ok c' => (.ok, c')

/-- The `_parse_file` method: a nil handle is skipped, an open handle is
read to completion by the loop. -/
def _parse_file (c : Config) (fname : String)
    (file : Option (List (List Char × ReadErr))) : Outcome × Config :=
  match file with
  | none => (.ok, c)
  | some reads => _parse_file_loop fname c reads

/-- The `finalize` method: iterate the `conf_files` map (in the given
unspecified order) calling `Close` on each handle. `Close` on a nil
`*os.File` merely returns `ErrInvalid`, releasing nothing, so only non-nil
handles produce a close event. -/
def finalize (c : Config) : List String → List Event
  | [] => []
  | fpath :: rest =>
    match alLookup c.conf_files fpath with
    | some (some _) => .closed fpath :: finalize c rest
    | some none => finalize c rest
    | none => finalize c rest

/-- The parse loop of `Parse_conf`: iterate the `conf_files` map (in the
given unspecified order), parsing each file and stopping at the first
failure. -/
def parseFilesLoop : Config → List String → Outcome × Config
  | c, [] => (.ok, c)
  | c, fname :: rest =>
    match _parse_file c fname (Option.join (alLookup c.conf_files fname)) with
    | (.ok, c') => parseFilesLoop c' rest
    | (.err e, c') => (.err e, c')
    | (.panicked m, c') => (.panicked m, c')

/-- The `Parse_conf` method. The three list arguments are the iteration
orders of the three independent `range` loops over the `conf_files` map
(in `_open_files`, in the parse loop, and in the deferred `finalize`);
Go leaves each order unspecified. The deferred `finalize` runs on every
exit path, including error returns and panics, so its close events are
appended to the trace in every case. -/
def Parse_conf (c : Config) (fs : String → Option (List (List Char × ReadErr)))
    (openOrder parseOrder closeOrder : List String) :
    Outcome × Config × List Event :=
  let r := _open_files fs c openOrder
  match r.1 with
  | some e => (.err e, r.2.1, r.2.2 ++ finalize r.2.1 closeOrder)
  | none =>
    let pr := parseFilesLoop r.2.1 parseOrder
    (pr.1, pr.2, r.2.2 ++ finalize pr.2 closeOrder)

/-- Result of `Get`: the Go `(string, error)` pair. -/
inductive GetResult where
  | ok (value : List Char)
  | noSuchSection (sec_name : List Char)
  | noSuchKey (sec_name key : List Char)
deriving DecidableEq

/-- The `Get` method. -/
def Get (c : Config) (sec key : List Char) : GetResult :=
  match alLookup c.sections sec with
  | none => .noSuchSection sec
  | some pSection =>
    match alLookup pSection.fields key with
    | none => .noSuchKey sec key
    | some value => .ok value

/-- The value stored for `key` in the section named `sec`, if any. -/
def fieldVal (c : Config) (sec key : List Char) : Option (List Char) :=
  (alLookup c.sections sec).bind fun pSection => alLookup pSection.fields key

/-- Well-formedness of the parse state: whenever a section is active, the
current-section pointer is non-nil and refers to a registered section.
This holds for every state the Go program can construct, since `cur_sec`
is only ever set to a pointer just fetched from or inserted into the
`sections` map. -/
def WF (c : Config) : Prop :=
  c._pstate.in_sec = true →
    ((c._pstate.cur_sec.bind fun s => alLookup c.sections s).isSome = true)

/-- First-of-`a`-then-`b` on options. -/
def oElse {α : Type} : Option α → Option α → Option α
  | some v, _ => some v
  | none, b => b

/-- The last element of a list, if any. -/
def lastA {α : Type} : List α → Option α
  | [] => none
  | [a] => some a
  | _ :: b :: t => lastA (b :: t)

/-- The value of the last assignment to (`sec`, `key`) in a trace of
assignment events. -/
def lastAssign (evs : List (List Char × List Char × List Char))
    (sec key : List Char) : Option (List Char) :=
  (lastA (evs.filter fun e => decide (e.1 = sec) && decide (e.2.1 = key))).map
    fun e => e.2.2

/-- Assignment events performed while the read loop of `_parse_file`
consumes a stream of `ReadLine` results (mirrors `_parse_file_loop`). -/
def readEvents : Config → List (List Char × ReadErr) →
    List (List Char × List Char × List Char)
  | _, [] => []
  | c, (line, rerr) :: rest =>
    match rerr with
    | .fail _ => []
    | .noErr =>
      match _parse_line c line with
      | .ok c' => (lineAssign c line).toList ++ readEvents c' rest
      | _ => []
    | .eof =>
      match _parse_line c line with
      | .ok _ => (lineAssign c line).toList
      | _ => []

/-- Assignment events performed while the parse loop of `Parse_conf`
processes files in the given iteration order (mirrors `parseFilesLoop`). -/
def filesEvents : Config → List String → List (List Char × List Char × List Char)
  | _, [] => []
  | c, fname :: rest =>
    match Option.join (alLookup c.conf_files fname) with
    | none => filesEvents c rest
    | some reads =>
      match _parse_file_loop fname c reads with
      | (.ok, c') => readEvents c reads ++ filesEvents c' rest
      | _ => readEvents c reads

/-- Assignment events of a whole `Parse_conf` run with the given open and
parse iteration orders. -/
def ParseAssignEvents (c : Config) (fs : String → Option (List (List Char × ReadErr)))
    (openOrder parseOrder : List String) :
    List (List Char × List Char × List Char) :=
  match (_open_files fs c openOrder).1 with
  | some _ => []
  | none => filesEvents (_open_files fs c openOrder).2.1 parseOrder

/-- Whether path `p` currently holds an open (non-nil) handle. -/
def isOpenH (c : Config) (p : String) : Bool :=
  match alLookup c.conf_files p with
  | some (some _) => true
  | some none => false
  | none => false

/-- Number of occurrences of `a` in `l`. -/
def countN {α : Type} [DecidableEq α] (a : α) : List α → Nat
  | [] => 0
  | x :: l => (if x = a then 1 else 0) + countN a l

/-- Store invariant: every registered section has a non-empty (raw) name
whose `name` field matches its key, and every stored key is non-empty
even after trimming. -/
def Inv (c : Config) : Prop :=
  (∀ p ∈ c.sections, p.1 ≠ []) ∧
  (∀ p ∈ c.sections, ∀ q ∈ p.2.fields, trimSpace q.1 ≠ [])

/-! Concrete states and file systems used to evaluate the code on
specific inputs. -/

/-- A configuration whose store holds one empty section `s`, which is
active: the state right after parsing the header line `[s]`. -/
def cActive : Config :=
  { conf_files := []
    sections := [(chars "s", NewSection (chars "s"))]
    _pstate := { in_sec := true, cur_sec := some (chars "s") } }

/-- A configuration whose store holds section `s` with the single field
`k = 1`, no section active. -/
def cStore : Config :=
  { conf_files := []
    sections := [(chars "s", { name := chars "s", fields := [(chars "k", chars "1")] })]
    _pstate := { in_sec := false, cur_sec := none } }

/-- Two files: `a` holds the header `[s]` and `b` holds the key/value
line `k = v`. -/
def fsAB : String → Option (List (List Char × ReadErr)) := fun p =>
  if p = "a" then some [(chars "[s]", .noErr), ([], .eof)]
  else if p = "b" then some [(chars "k = v", .noErr), ([], .eof)]
  else none

/-- One file assigning key `a` twice in section `s`. -/
def fsDup : String → Option (List (List Char × ReadErr)) := fun _ =>
  some [(chars "[s]", .noErr), (chars "a = 1", .noErr), (chars "a = 2", .noErr), ([], .eof)]

/-- One file whose only line is the key/value line `k =` with an empty
value, placed before any section header. -/
def fsEmptyVal : String → Option (List (List Char × ReadErr)) := fun _ =>
  some [(chars "k =", .noErr), ([], .eof)]

/-- One file holding a blank line and then `k = v`, before any header. -/
def fsOutside : String → Option (List (List Char × ReadErr)) := fun _ =>
  some [(chars "  ", .noErr), (chars "k = v", .noErr), ([], .eof)]

/-- Empty files for the resource-handling witness. -/
def fsEmpty : String → Option (List (List Char × ReadErr)) := fun _ =>
  some [([], .eof)]

/-! Lemmas about the association-list model of Go maps. -/

theorem alLookup_alInsert {κ α : Type} [DecidableEq κ] (m : List (κ × α)) (k k' : κ) (v : α) :
    alLookup (alInsert m k v) k' = if k' = k then some v else alLookup m k' := by
  induction m with
  | nil =>
    by_cases h : k' = k
    · subst h; simp [alInsert, alLookup]
    · have h' : ¬ k = k' := fun hh => h hh.symm
      simp [alInsert, alLookup, h, h']
  | cons p rest ih =>
    obtain ⟨pk, pv⟩ := p
    by_cases hin : pk = k
    · subst hin
      by_cases hl : k' = pk
      · subst hl; simp [alInsert, alLookup]
      · have hl' : ¬ pk = k' := fun hh => hl hh.symm
        simp [alInsert, alLookup, hl, hl']
    · by_cases hl : pk = k'
      · subst hl
        have houter : ¬ pk = k := hin
        simp [alInsert, alLookup, hin, houter]
      · simp [alInsert, alLookup, hin, hl, ih]

theorem alLookup_eq_none_iff {κ α : Type} [DecidableEq κ] (m : List (κ × α)) (k : κ) :
    alLookup m k = none ↔ ∀ p ∈ m, p.1 ≠ k := by
  induction m with
  | nil => simp [alLookup]
  | cons p rest ih =>
    obtain ⟨pk, pv⟩ := p
    by_cases h : pk = k <;> simp [alLookup, h, ih]

theorem alLookup_isSome_iff_mem {κ α : Type} [DecidableEq κ] (m : List (κ × α)) (k : κ) :
    (alLookup m k).isSome = true ↔ k ∈ m.map Prod.fst := by
  induction m with
  | nil => simp [alLookup]
  | cons p rest ih =>
    obtain ⟨pk, pv⟩ := p
    by_cases h : pk = k
    · subst h; simp [alLookup]
    · have h' : ¬ k = pk := fun hh => h hh.symm
      simp [alLookup, h, h', ih]

theorem alLookup_mem {κ α : Type} [DecidableEq κ] {m : List (κ × α)} {k : κ} {v : α}
    (h : alLookup m k = some v) : (k, v) ∈ m := by
  induction m with
  | nil => simp [alLookup] at h
  | cons p rest ih =>
    obtain ⟨pk, pv⟩ := p
    by_cases hk : pk = k
    · subst hk
      simp [alLookup] at h
      simp [h]
    · simp [alLookup, hk] at h
      simp [ih h]

theorem mem_alLookup {κ α : Type} [DecidableEq κ] {m : List (κ × α)} {k : κ} {v : α}
    (hnd : (m.map Prod.fst).Nodup) (h : (k, v) ∈ m) : alLookup m k = some v := by
  induction m with
  | nil => simp at h
  | cons p rest ih =>
    obtain ⟨pk, pv⟩ := p
    simp only [List.map_cons, List.nodup_cons] at hnd
    rcases List.mem_cons.mp h with h1 | h1
    · cases h1
      simp [alLookup]
    · have hne : pk ≠ k := by
        intro he
        subst he
        exact hnd.1 (List.mem_map.mpr ⟨(pk, v), h1, rfl⟩)
      simp [alLookup, hne, ih hnd.2 h1]

theorem alInsert_keys_of_isSome {κ α : Type} [DecidableEq κ] (m : List (κ × α)) (k : κ) (v : α)
    (h : (alLookup m k).isSome = true) :
    (alInsert m k v).map Prod.fst = m.map Prod.fst := by
  induction m with
  | nil => simp [alLookup] at h
  | cons p rest ih =>
    obtain ⟨pk, pv⟩ := p
    by_cases hk : pk = k
    · simp [alInsert, hk]
    · simp only [alLookup, if_neg hk] at h
      simp [alInsert, hk, ih h]

theorem alInsert_keys_of_none {κ α : Type} [DecidableEq κ] (m : List (κ × α)) (k : κ) (v : α)
    (h : alLookup m k = none) :
    (alInsert m k v).map Prod.fst = m.map Prod.fst ++ [k] := by
  induction m with
  | nil => simp [alInsert]
  | cons p rest ih =>
    obtain ⟨pk, pv⟩ := p
    by_cases hk : pk = k
    · simp [alLookup, hk] at h
    · simp only [alLookup, if_neg hk] at h
      simp [alInsert, hk, ih h]

theorem mem_alInsert {κ α : Type} [DecidableEq κ] {m : List (κ × α)} {k : κ} {v : α}
    {q : κ × α} (h : q ∈ alInsert m k v) : q ∈ m ∨ q = (k, v) := by
  induction m with
  | nil => simp [alInsert] at h; simp [h]
  | cons p rest ih =>
    obtain ⟨pk, pv⟩ := p
    by_cases hk : pk = k
    · subst hk
      simp only [alInsert, if_pos rfl] at h
      rcases List.mem_cons.mp h with h1 | h1
      · right; exact h1
      · left; exact List.mem_cons_of_mem _ h1
    · simp only [alInsert, if_neg hk] at h
      rcases List.mem_cons.mp h with h1 | h1
      · left; simp [h1]
      · rcases ih h1 with h2 | h2
        · left; exact List.mem_cons_of_mem _ h2
        · right; exact h2

theorem setField_alLookup (m : List (List Char × Section)) (sec key value s : List Char) :
    alLookup (setField m sec key value) s =
      if s = sec then
        (alLookup m s).map fun S => { S with fields := alInsert S.fields key value }
      else alLookup m s := by
  induction m with
  | nil => simp [setField, alLookup]
  | cons p rest ih =>
    obtain ⟨pk, pv⟩ := p
    by_cases hpk : pk = sec
    · subst hpk
      by_cases hs : pk = s
      · subst hs
        simp [setField, alLookup]
      · have hs' : ¬ s = pk := fun h => hs h.symm
        simp [setField, alLookup, hs, hs', ih]
    · by_cases hs : pk = s
      · subst hs
        simp [setField, alLookup, hpk]
      · simp [setField, alLookup, hpk, hs, ih]

theorem mem_setField {m : List (List Char × Section)} {sec key value : List Char}
    {q : List Char × Section} (h : q ∈ setField m sec key value) :
    q ∈ m ∨ ∃ p ∈ m, q = (p.1, { p.2 with fields := alInsert p.2.fields key value }) := by
  induction m with
  | nil => simp [setField] at h
  | cons p rest ih =>
    obtain ⟨pk, pv⟩ := p
    by_cases hc : pk = sec
    · simp only [setField, if_pos hc] at h
      rcases List.mem_cons.mp h with h1 | h1
      · right
        exact ⟨(pk, pv), List.mem_cons_self _ _, h1⟩
      · rcases ih h1 with h2 | h2
        · left; exact List.mem_cons_of_mem _ h2
        · rcases h2 with ⟨p, hp, hq⟩
          right; exact ⟨p, List.mem_cons_of_mem _ hp, hq⟩
    · simp only [setField, if_neg hc] at h
      rcases List.mem_cons.mp h with h1 | h1
      · left; simp [h1]
      · rcases ih h1 with h2 | h2
        · left; exact List.mem_cons_of_mem _ h2
        · rcases h2 with ⟨p, hp, hq⟩
          right; exact ⟨p, List.mem_cons_of_mem _ hp, hq⟩

/-! Lemmas about `trimSpace`. -/

theorem dropWhile_head_not {p : Char → Bool} :
    ∀ (l : List Char) (a : Char), (l.dropWhile p).head? = some a → p a = false := by
  intro l
  induction l with
  | nil => intro a h; simp [List.dropWhile] at h
  | cons b t ih =>
    intro a h
    by_cases hb : p b
    · rw [List.dropWhile_cons_of_pos hb] at h
      exact ih a h
    · rw [List.dropWhile_cons_of_neg hb] at h
      simp at h
      subst h
      simpa using hb

theorem dropWhile_eq_self_of_head {p : Char → Bool} {l : List Char}
    (h : ∀ a, l.head? = some a → p a = false) : l.dropWhile p = l := by
  cases l with
  | nil => rfl
  | cons b t => exact List.dropWhile_cons_of_neg (by simp [h b rfl])

theorem getLast?_dropWhile {p : Char → Bool} :
    ∀ (l : List Char), l.dropWhile p ≠ [] → (l.dropWhile p).getLast? = l.getLast? := by
  intro l
  induction l with
  | nil => intro h; simp [List.dropWhile] at h
  | cons b t ih =>
    intro h
    by_cases hb : p b
    · rw [List.dropWhile_cons_of_pos hb] at h ⊢
      have ht : t ≠ [] := by
        intro he
        subst he
        simp [List.dropWhile] at h
      rw [ih h]
      cases t with
      | nil => exact absurd rfl ht
      | cons x xs => simp [List.getLast?_cons_cons]
    · rw [List.dropWhile_cons_of_neg hb]

theorem trimSpace_nil : trimSpace [] = [] := rfl

theorem trimSpace_idem (s : List Char) : trimSpace (trimSpace s) = trimSpace s := by
  set u := s.dropWhile goIsSpace with hu
  set v := u.reverse.dropWhile goIsSpace with hv
  have htrim : trimSpace s = v.reverse := rfl
  rcases Decidable.em (v = []) with hve | hve
  · rw [htrim, hve]
    rfl
  · have hhead_v : ∀ a, v.head? = some a → goIsSpace a = false := by
      intro a ha
      exact dropWhile_head_not _ a (hv ▸ ha)
    have hlast_v : ∀ a, v.getLast? = some a → goIsSpace a = false := by
      intro a ha
      have h1 : v.getLast? = u.reverse.getLast? := by
        rw [hv]
        exact getLast?_dropWhile _ (hv ▸ hve)
      rw [h1] at ha
      rw [List.getLast?_reverse] at ha
      exact dropWhile_head_not _ a (hu ▸ ha)
    rw [htrim]
    show ((v.reverse.dropWhile goIsSpace).reverse.dropWhile goIsSpace).reverse = v.reverse
    have h2 : v.reverse.dropWhile goIsSpace = v.reverse := by
      apply dropWhile_eq_self_of_head
      intro a ha
      rw [List.head?_reverse] at ha
      exact hlast_v a ha
    rw [h2, List.reverse_reverse]
    have h3 : v.dropWhile goIsSpace = v := by
      apply dropWhile_eq_self_of_head
      exact hhead_v
    rw [h3]

/-! Lemmas about `oElse`, `lastA`, `lastAssign` and `countN`. -/

theorem oElse_none_left {α : Type} (b : Option α) : oElse none b = b := rfl

theorem oElse_some {α : Type} (a : α) (b : Option α) : oElse (some a) b = some a := rfl

theorem oElse_none_right {α : Type} (a : Option α) : oElse a none = a := by
  cases a <;> rfl

theorem oElse_assoc {α : Type} (a b c : Option α) :
    oElse (oElse a b) c = oElse a (oElse b c) := by
  cases a <;> cases b <;> rfl

theorem lastA_cons_ne {α : Type} (a : α) {t : List α} (h : t ≠ []) :
    lastA (a :: t) = lastA t := by
  cases t with
  | nil => exact absurd rfl h
  | cons b t' => rfl

theorem lastA_isSome_of_ne {α : Type} : ∀ {l : List α}, l ≠ [] → (lastA l).isSome = true := by
  intro l
  induction l with
  | nil => intro h; exact absurd rfl h
  | cons a t ih =>
    intro _
    cases t with
    | nil => rfl
    | cons b t' =>
      rw [lastA_cons_ne a (by simp)]
      exact ih (by simp)

theorem lastA_append {α : Type} (l1 l2 : List α) :
    lastA (l1 ++ l2) = oElse (lastA l2) (lastA l1) := by
  induction l1 with
  | nil =>
    rw [List.nil_append]
    cases hl : lastA l2 <;> rfl
  | cons a t ih =>
    cases he : t ++ l2 with
    | nil =>
      rcases List.append_eq_nil.mp he with ⟨ht, hl2⟩
      subst ht; subst hl2
      rfl
    | cons x xs =>
      have hne : t ++ l2 ≠ [] := by rw [he]; simp
      rw [List.cons_append, lastA_cons_ne a hne, ih]
      cases l2 with
      | nil =>
        rw [List.append_nil] at he
        rw [lastA_cons_ne a (by simp [he])]
      | cons y ys =>
        obtain ⟨z, hz⟩ := Option.isSome_iff_exists.mp
          (lastA_isSome_of_ne (l := y :: ys) (by simp))
        rw [hz, oElse_some, oElse_some]

theorem oElse_map {α β : Type} (f : α → β) (a b : Option α) :
    (oElse a b).map f = oElse (a.map f) (b.map f) := by
  cases a <;> rfl

theorem lastAssign_nil (sec key : List Char) : lastAssign [] sec key = none := rfl

theorem lastAssign_append (a b : List (List Char × List Char × List Char))
    (sec key : List Char) :
    lastAssign (a ++ b) sec key = oElse (lastAssign b sec key) (lastAssign a sec key) := by
  unfold lastAssign
  rw [List.filter_append, lastA_append, oElse_map]

theorem lastAssign_single (sec key value s k : List Char) :
    lastAssign [(sec, key, value)] s k =
      if s = sec ∧ k = key then some value else none := by
  unfold lastAssign
  by_cases h1 : s = sec
  · subst h1
    by_cases h2 : k = key
    · subst h2
      simp [lastA]
    · have h2' : ¬ key = k := fun h => h2 h.symm
      simp [lastA, h2, h2']
  · have h1' : ¬ sec = s := fun h => h1 h.symm
    simp [lastA, h1, h1']

theorem countN_append {α : Type} [DecidableEq α] (a : α) (l1 l2 : List α) :
    countN a (l1 ++ l2) = countN a l1 + countN a l2 := by
  induction l1 with
  | nil => simp [countN]
  | cons x t ih => simp [countN, ih]; omega

theorem countN_eq_zero_of_not_mem {α : Type} [DecidableEq α] {a : α} {l : List α}
    (h : a ∉ l) : countN a l = 0 := by
  induction l with
  | nil => rfl
  | cons x t ih =>
    have hx : ¬ x = a := fun he => h (by simp [he])
    simp [countN, hx, ih (fun hm => h (List.mem_cons_of_mem _ hm))]

theorem countN_eq_one_of_nodup_mem {α : Type} [DecidableEq α] {a : α} {l : List α}
    (hnd : l.Nodup) (h : a ∈ l) : countN a l = 1 := by
  induction l with
  | nil => simp at h
  | cons x t ih =>
    rw [List.nodup_cons] at hnd
    rcases List.mem_cons.mp h with h1 | h1
    · subst h1
      simp [countN, countN_eq_zero_of_not_mem hnd.1]
    · have hx : ¬ x = a := by
        intro he
        subst he
        exact hnd.1 h1
      simp [countN, hx, ih hnd.2 h1]

theorem countN_eq_zero_of_all_ne {α : Type} [DecidableEq α] {a : α} {l : List α}
    (h : ∀ x ∈ l, x ≠ a) : countN a l = 0 :=
  countN_eq_zero_of_not_mem (fun hm => h a hm rfl)

/-! The per-line state-evolution lemma: a successfully parsed line leaves
`conf_files` untouched, preserves well-formedness and the store invariant,
and changes the stored field values exactly by its assignment event. -/

theorem parse_line_ok_cases {c c' : Config} {l : List Char}
    (h : _parse_line c l = .ok c') :
    c'.conf_files = c.conf_files ∧
    (WF c → WF c') ∧
    (WF c → ∀ s k, fieldVal c' s k =
        oElse (lastAssign (lineAssign c l).toList s k) (fieldVal c s k)) ∧
    (Inv c → Inv c') := by
  by_cases h0 : l.length > 0
  case neg =>
    have hla : lineAssign c l = none := by simp [lineAssign, h0]
    simp only [_parse_line, if_neg h0, LineResult.ok.injEq] at h
    subst h
    exact ⟨rfl, fun hw => hw,
      fun _ s k => by simp [hla, Option.toList, lastAssign_nil, oElse_none_left],
      fun hi => hi⟩
  case pos =>
    simp only [_parse_line, if_pos h0] at h
    by_cases h1 : (trimSpace l).length > 0
    case neg =>
      have hla : lineAssign c l = none := by simp [lineAssign, h0, h1]
      simp only [if_neg h1, LineResult.ok.injEq] at h
      subst h
      exact ⟨rfl, fun hw => hw,
        fun _ s k => by simp [hla, Option.toList, lastAssign_nil, oElse_none_left],
        fun hi => hi⟩
    case pos =>
      simp only [if_pos h1] at h
      by_cases h2 : (trimSpace l).get? 0 = some '[' ∧
          (trimSpace l).get? ((trimSpace l).length - 1) = some ']'
      case pos =>
        -- section-header branch
        simp only [if_pos h2] at h
        by_cases h3 : (((trimSpace l).drop 1).take ((trimSpace l).length - 2)).length = 0
        case pos =>
          rw [if_pos h3] at h
          exact LineResult.noConfusion h
        case neg =>
          simp only [if_neg h3] at h
          have hla : lineAssign c l = none := by
            simp only [lineAssign]
            rw [if_pos h0, if_pos h1, if_pos h2]
          have hname : ((trimSpace l).drop 1).take ((trimSpace l).length - 2) ≠ [] :=
            fun he => h3 (he ▸ rfl)
          by_cases h4 : (alLookup c.sections
              (((trimSpace l).drop 1).take ((trimSpace l).length - 2))).isSome = true
          case pos =>
            simp only [if_pos h4, LineResult.ok.injEq] at h
            subst h
            refine ⟨rfl, fun _ _ => by simpa using h4,
              fun _ s k => by
                simp [hla, Option.toList, lastAssign_nil, oElse_none_left, fieldVal],
              fun hi => hi⟩
          case neg =>
            simp only [if_neg h4, LineResult.ok.injEq] at h
            subst h
            have hnone : alLookup c.sections
                (((trimSpace l).drop 1).take ((trimSpace l).length - 2)) = none :=
              Option.not_isSome_iff_eq_none.mp h4
            refine ⟨rfl, fun _ _ => by simp [alLookup_alInsert], fun _ s k => ?_,
              fun hi => ?_⟩
            · simp only [hla, Option.toList, lastAssign_nil, oElse_none_left]
              simp only [fieldVal, alLookup_alInsert]
              by_cases hs : s = ((trimSpace l).drop 1).take ((trimSpace l).length - 2)
              · rw [if_pos hs, hs, hnone]
                simp [NewSection, alLookup]
              · rw [if_neg hs]
            · obtain ⟨hi1, hi2⟩ := hi
              constructor
              · intro p hp
                rcases mem_alInsert hp with hold | hnew
                · exact hi1 p hold
                · rw [hnew]
                  exact hname
              · intro p hp q hq
                rcases mem_alInsert hp with hold | hnew
                · exact hi2 p hold q hq
                · rw [hnew] at hq
                  simp [NewSection] at hq
      case neg =>
        -- key/value branch
        simp only [if_neg h2] at h
        by_cases h5 : goStringsIndex (trimSpace l) '=' ≤ 0
        case pos => simp [h5] at h
        case neg =>
          simp only [if_neg h5] at h
          by_cases h6 : (trimSpace ((trimSpace l).take
              (goStringsIndex (trimSpace l) '=').toNat)).length = 0
          case pos => simp [h6] at h
          case neg =>
            simp only [if_neg h6] at h
            cases hsq : stripQuotes (trimSpace ((trimSpace l).drop
                ((goStringsIndex (trimSpace l) '=').toNat + 1))) with
            | none => simp [hsq] at h
            | some value =>
              simp only [hsq] at h
              by_cases h7 : c._pstate.in_sec = true
              case neg =>
                rw [Bool.not_eq_true] at h7
                simp [h7] at h
              case pos =>
                simp only [h7, Bool.not_true, Bool.false_eq_true, if_false] at h
                cases hcur : c._pstate.cur_sec with
                | none => simp [hcur] at h
                | some cs =>
                  simp only [hcur, LineResult.ok.injEq] at h
                  subst h
                  have hla : lineAssign c l = some (cs,
                      trimSpace ((trimSpace l).take (goStringsIndex (trimSpace l) '=').toNat),
                      value) := by
                    simp only [lineAssign]
                    rw [if_pos h0, if_pos h1, if_neg h2, if_neg h5, if_neg h6, hsq]
                    simp [h7, hcur]
                  refine ⟨rfl, fun hw _ => ?_, fun hw s k => ?_, fun hi => ?_⟩
                  · have hcs : (alLookup c.sections cs).isSome = true := by
                      have hx := hw h7
                      rw [hcur] at hx
                      simpa using hx
                    obtain ⟨S, hS⟩ := Option.isSome_iff_exists.mp hcs
                    simp only [hcur]
                    simp [setField_alLookup, hS]
                  · have hcs : (alLookup c.sections cs).isSome = true := by
                      have hx := hw h7
                      rw [hcur] at hx
                      simpa using hx
                    obtain ⟨S, hS⟩ := Option.isSome_iff_exists.mp hcs
                    rw [hla]
                    simp only [Option.toList]
                    rw [lastAssign_single]
                    simp only [fieldVal, setField_alLookup]
                    by_cases hs : s = cs
                    · subst hs
                      rw [hS]
                      by_cases hk : k = trimSpace ((trimSpace l).take
                          (goStringsIndex (trimSpace l) '=').toNat)
                      · subst hk
                        simp [alLookup_alInsert, oElse]
                      · have hc : ¬ (s = s ∧ k = trimSpace ((trimSpace l).take
                            (goStringsIndex (trimSpace l) '=').toNat)) := fun hx => hk hx.2
                        simp [alLookup_alInsert, hk, hc, oElse]
                    · have hc : ¬ (s = cs ∧ k = trimSpace ((trimSpace l).take
                          (goStringsIndex (trimSpace l) '=').toNat)) := fun hx => hs hx.1
                      simp [hs, hc, oElse]
                  · obtain ⟨hi1, hi2⟩ := hi
                    constructor
                    · intro p hp
                      rcases mem_setField hp with hold | ⟨p0, hp0, hq⟩
                      · exact hi1 p hold
                      · rw [hq]
                        exact hi1 p0 hp0
                    · intro p hp q hq
                      rcases mem_setField hp with hold | ⟨p0, hp0, hpq⟩
                      · exact hi2 p hold q hq
                      · rw [hpq] at hq
                        simp only at hq
                        rcases mem_alInsert hq with hqold | hqnew
                        · exact hi2 p0 hp0 q hqold
                        · rw [hqnew]
                          simp only
                          rw [trimSpace_idem]
                          intro he
                          exact h6 (by simp [he])

/-! Evolution of the store across a whole file and across files. -/

theorem parse_file_loop_ok {fname : String} :
    ∀ {reads : List (List Char × ReadErr)} {c c' : Config},
      WF c → _parse_file_loop fname c reads = (.ok, c') →
      WF c' ∧ c'.conf_files = c.conf_files ∧
      ∀ s k, fieldVal c' s k =
        oElse (lastAssign (readEvents c reads) s k) (fieldVal c s k) := by
  intro reads
  induction reads with
  | nil =>
    intro c c' hw h
    simp only [_parse_file_loop] at h
    injection h with h1 h2
    subst h2
    exact ⟨hw, rfl, fun s k => by simp [readEvents, lastAssign_nil, oElse_none_left]⟩
  | cons r rest ih =>
    intro c c' hw h
    obtain ⟨line, rerr⟩ := r
    cases rerr with
    | fail msg =>
      simp only [_parse_file_loop] at h
      injection h with h1 h2
      exact Outcome.noConfusion h1
    | noErr =>
      simp only [_parse_file_loop] at h
      cases hpl : _parse_line c line with
      | err e =>
        simp only [hpl] at h
        injection h with h1 h2
        exact Outcome.noConfusion h1
      | panicked m =>
        simp only [hpl] at h
        injection h with h1 h2
        exact Outcome.noConfusion h1
      | ok c1 =>
        simp only [hpl] at h
        have hstep := parse_line_ok_cases hpl
        have hw1 : WF c1 := hstep.2.1 hw
        obtain ⟨hwf', hcf', hfv'⟩ := ih hw1 h
        refine ⟨hwf', hcf'.trans hstep.1, fun s k => ?_⟩
        have hev : readEvents c ((line, ReadErr.noErr) :: rest) =
            (lineAssign c line).toList ++ readEvents c1 rest := by
          simp only [readEvents, hpl]
        rw [hev, lastAssign_append, hfv' s k, hstep.2.2.1 hw s k, oElse_assoc]
    | eof =>
      simp only [_parse_file_loop] at h
      cases hpl : _parse_line c line with
      | err e =>
        simp only [hpl] at h
        injection h with h1 h2
        exact Outcome.noConfusion h1
      | panicked m =>
        simp only [hpl] at h
        injection h with h1 h2
        exact Outcome.noConfusion h1
      | ok c1 =>
        simp only [hpl] at h
        injection h with h1 h2
        subst h2
        have hstep := parse_line_ok_cases hpl
        refine ⟨hstep.2.1 hw, hstep.1, fun s k => ?_⟩
        have hev : readEvents c ((line, ReadErr.eof) :: rest) =
            (lineAssign c line).toList := by
          simp only [readEvents, hpl]
        rw [hev, hstep.2.2.1 hw s k]

theorem parse_files_loop_ok :
    ∀ {order : List String} {c c' : Config},
      WF c → parseFilesLoop c order = (.ok, c') →
      WF c' ∧ c'.conf_files = c.conf_files ∧
      ∀ s k, fieldVal c' s k =
        oElse (lastAssign (filesEvents c order) s k) (fieldVal c s k) := by
  intro order
  induction order with
  | nil =>
    intro c c' hw h
    simp only [parseFilesLoop] at h
    injection h with h1 h2
    subst h2
    exact ⟨hw, rfl, fun s k => by simp [filesEvents, lastAssign_nil, oElse_none_left]⟩
  | cons fname rest ih =>
    intro c c' hw h
    cases hf : Option.join (alLookup c.conf_files fname) with
    | none =>
      simp only [parseFilesLoop, hf, _parse_file] at h
      obtain ⟨hw', hcf', hfv'⟩ := ih hw h
      refine ⟨hw', hcf', fun s k => ?_⟩
      have hev : filesEvents c (fname :: rest) = filesEvents c rest := by
        simp only [filesEvents, hf]
      rw [hev, hfv' s k]
    | some reads =>
      simp only [parseFilesLoop, hf, _parse_file] at h
      rcases hl : _parse_file_loop fname c reads with ⟨out, c1⟩
      cases out with
      | err e =>
        simp only [hl] at h
        injection h with h1 h2
        exact Outcome.noConfusion h1
      | panicked m =>
        simp only [hl] at h
        injection h with h1 h2
        exact Outcome.noConfusion h1
      | ok =>
        simp only [hl] at h
        obtain ⟨hw1, hcf1, hfv1⟩ := parse_file_loop_ok hw hl
        obtain ⟨hw', hcf', hfv'⟩ := ih hw1 h
        refine ⟨hw', hcf'.trans hcf1, fun s k => ?_⟩
        have hev : filesEvents c (fname :: rest) =
            readEvents c reads ++ filesEvents c1 rest := by
          simp only [filesEvents, hf, hl]
        rw [hev, lastAssign_append, hfv' s k, hfv1 s k, oElse_assoc]

/-! Lemmas about `_open_files`, `NewConfig` and `finalize`. -/

theorem open_files_sections (fs : String → Option (List (List Char × ReadErr))) :
    ∀ (o : List String) (c : Config),
      (_open_files fs c o).2.1.sections = c.sections ∧
      (_open_files fs c o).2.1._pstate = c._pstate := by
  intro o
  induction o with
  | nil => intro c; exact ⟨rfl, rfl⟩
  | cons fpath rest ih =>
    intro c
    cases hlook : alLookup c.conf_files fpath with
    | none =>
      simp only [_open_files, hlook]
      exact ih c
    | some ho =>
      cases ho with
      | none =>
        cases hfs : fs fpath with
        | none => simp [_open_files, hlook, hfs]
        | some rd =>
          simp only [_open_files, hlook, hfs]
          exact ih _
      | some r =>
        simp only [_open_files, hlook]
        exact ih c

theorem open_files_keys (fs : String → Option (List (List Char × ReadErr))) :
    ∀ (o : List String) (c : Config),
      (_open_files fs c o).2.1.conf_files.map Prod.fst = c.conf_files.map Prod.fst := by
  intro o
  induction o with
  | nil => intro c; rfl
  | cons fpath rest ih =>
    intro c
    cases hlook : alLookup c.conf_files fpath with
    | none =>
      simp only [_open_files, hlook]
      exact ih c
    | some ho =>
      cases ho with
      | none =>
        cases hfs : fs fpath with
        | none => simp only [_open_files, hlook, hfs]
        | some rd =>
          simp only [_open_files, hlook, hfs]
          refine (ih _).trans ?_
          exact alInsert_keys_of_isSome c.conf_files fpath (some rd) (by simp [hlook])
      | some r =>
        simp only [_open_files, hlook]
        exact ih c

theorem open_files_mono (fs : String → Option (List (List Char × ReadErr))) :
    ∀ (o : List String) (c : Config) (p : String) (r : List (List Char × ReadErr)),
      alLookup c.conf_files p = some (some r) →
      alLookup (_open_files fs c o).2.1.conf_files p = some (some r) := by
  intro o
  induction o with
  | nil => intro c p r hp; exact hp
  | cons fpath rest ih =>
    intro c p r hp
    cases hlook : alLookup c.conf_files fpath with
    | none =>
      simp only [_open_files, hlook]
      exact ih c p r hp
    | some ho =>
      cases ho with
      | none =>
        cases hfs : fs fpath with
        | none => simp only [_open_files, hlook, hfs]; exact hp
        | some rd =>
          simp only [_open_files, hlook, hfs]
          apply ih
          have hne : ¬ p = fpath := by
            intro he
            rw [he, hlook] at hp
            exact Option.noConfusion (Option.some.inj hp)
          simp only [alLookup_alInsert, if_neg hne]
          exact hp
      | some r2 =>
        simp only [_open_files, hlook]
        exact ih c p r hp

theorem open_files_events_opened (fs : String → Option (List (List Char × ReadErr))) :
    ∀ (o : List String) (c : Config) (e : Event),
      e ∈ (_open_files fs c o).2.2 → ∃ p, e = .opened p := by
  intro o
  induction o with
  | nil => intro c e he; simp [_open_files] at he
  | cons fpath rest ih =>
    intro c e he
    cases hlook : alLookup c.conf_files fpath with
    | none =>
      simp only [_open_files, hlook] at he
      exact ih c e he
    | some ho =>
      cases ho with
      | none =>
        cases hfs : fs fpath with
        | none => simp only [_open_files, hlook, hfs] at he; simp at he
        | some rd =>
          simp only [_open_files, hlook, hfs] at he
          rcases List.mem_cons.mp he with h1 | h1
          · exact ⟨fpath, h1⟩
          · exact ih _ e h1
      | some r =>
        simp only [_open_files, hlook] at he
        exact ih c e he

theorem isOpenH_insert (c : Config) (q p : String)
    (rd : List (List Char × ReadErr)) :
    isOpenH { c with conf_files := alInsert c.conf_files q (some rd) } p =
      if p = q then true else isOpenH c p := by
  by_cases hp : p = q
  · simp [isOpenH, alLookup_alInsert, hp]
  · simp only [isOpenH, alLookup_alInsert]
    rw [if_neg hp, if_neg hp]

theorem open_files_count (fs : String → Option (List (List Char × ReadErr))) :
    ∀ (o : List String) (c : Config) (p : String),
      countN (Event.opened p) (_open_files fs c o).2.2 =
        if isOpenH (_open_files fs c o).2.1 p && !(isOpenH c p) then 1 else 0 := by
  intro o
  induction o with
  | nil =>
    intro c p
    simp [_open_files, countN]
  | cons fpath rest ih =>
    intro c p
    cases hlook : alLookup c.conf_files fpath with
    | none =>
      simp only [_open_files, hlook]
      exact ih c p
    | some ho =>
      cases ho with
      | none =>
        cases hfs : fs fpath with
        | none =>
          simp only [_open_files, hlook, hfs]
          simp [countN]
        | some rd =>
          simp only [_open_files, hlook, hfs]
          by_cases hp : p = fpath
          · subst hp
            have hopen : isOpenH c p = false := by simp [isOpenH, hlook]
            have hc' : isOpenH { c with
                conf_files := alInsert c.conf_files p (some rd) } p = true := by
              simp [isOpenH_insert]
            have hfinal : alLookup (_open_files fs { c with
                conf_files := alInsert c.conf_files p (some rd) } rest).2.1.conf_files p =
                some (some rd) := by
              apply open_files_mono
              simp [alLookup_alInsert]
            have hfinal2 : isOpenH (_open_files fs { c with
                conf_files := alInsert c.conf_files p (some rd) } rest).2.1 p = true := by
              simp [isOpenH, hfinal]
            rw [countN, ih _ p, hc', hopen, hfinal2]
            simp
          · have hstep : isOpenH { c with
                conf_files := alInsert c.conf_files fpath (some rd) } p = isOpenH c p := by
              rw [isOpenH_insert, if_neg hp]
            rw [countN, ih _ p, hstep]
            have hne : ¬ Event.opened fpath = Event.opened p := by
              intro he
              exact hp (Event.opened.inj he).symm
            rw [if_neg hne, Nat.zero_add]
      | some r =>
        simp only [_open_files, hlook]
        exact ih c p

theorem open_files_success (fs : String → Option (List (List Char × ReadErr)))
    (hfs : ∀ p, (fs p).isSome = true) :
    ∀ (o : List String) (c : Config), (_open_files fs c o).1 = none := by
  intro o
  induction o with
  | nil => intro c; rfl
  | cons fpath rest ih =>
    intro c
    cases hlook : alLookup c.conf_files fpath with
    | none =>
      simp only [_open_files, hlook]
      exact ih c
    | some ho =>
      cases ho with
      | none =>
        cases hfso : fs fpath with
        | none => exact absurd (hfs fpath) (by simp [hfso])
        | some rd =>
          simp only [_open_files, hlook, hfso]
          exact ih _
      | some r =>
        simp only [_open_files, hlook]
        exact ih c

theorem open_files_gets (fs : String → Option (List (List Char × ReadErr)))
    (hfs : ∀ p, (fs p).isSome = true) :
    ∀ (o : List String) (c : Config) (fname : String) (rd : List (List Char × ReadErr)),
      fname ∈ o → alLookup c.conf_files fname = some none → fs fname = some rd →
      alLookup (_open_files fs c o).2.1.conf_files fname = some (some rd) := by
  intro o
  induction o with
  | nil => intro c fname rd hmem; simp at hmem
  | cons fpath rest ih =>
    intro c fname rd hmem hlk hfs0
    by_cases hp : fname = fpath
    · subst hp
      simp only [_open_files, hlk, hfs0]
      apply open_files_mono
      simp [alLookup_alInsert]
    · have hrest : fname ∈ rest := by
        rcases List.mem_cons.mp hmem with h1 | h1
        · exact absurd h1 hp
        · exact h1
      cases hlook : alLookup c.conf_files fpath with
      | none =>
        simp only [_open_files, hlook]
        exact ih c fname rd hrest hlk hfs0
      | some ho =>
        cases ho with
        | none =>
          cases hfso : fs fpath with
          | none => exact absurd (hfs fpath) (by simp [hfso])
          | some rd2 =>
            simp only [_open_files, hlook, hfso]
            apply ih _ fname rd hrest _ hfs0
            simp only [alLookup_alInsert, if_neg hp]
            exact hlk
        | some r =>
          simp only [_open_files, hlook]
          exact ih c fname rd hrest hlk hfs0

theorem newConfig_fold_values_none :
    ∀ (files : List String) (m : List (String × Option (List (List Char × ReadErr)))),
      (∀ q ∈ m, q.2 = none) →
      ∀ q ∈ files.foldl (fun m file => alInsert m file none) m, q.2 = none := by
  intro files
  induction files with
  | nil => intro m hm q hq; exact hm q hq
  | cons f rest ih =>
    intro m hm q hq
    refine ih (alInsert m f none) ?_ q hq
    intro q' hq'
    rcases mem_alInsert hq' with h1 | h1
    · exact hm q' h1
    · rw [h1]

theorem newConfig_fold_isSome :
    ∀ (files : List String) (m : List (String × Option (List (List Char × ReadErr))))
      (p : String),
      (alLookup m p).isSome = true ∨ p ∈ files →
      (alLookup (files.foldl (fun m file => alInsert m file none) m) p).isSome = true := by
  intro files
  induction files with
  | nil =>
    intro m p hp
    rcases hp with h | h
    · exact h
    · simp at h
  | cons f rest ih =>
    intro m p hp
    refine ih (alInsert m f none) p ?_
    by_cases hf : p = f
    · left
      simp [alLookup_alInsert, hf]
    · rcases hp with h | h
      · left
        simpa [alLookup_alInsert, hf] using h
      · right
        rcases List.mem_cons.mp h with h1 | h1
        · exact absurd h1 hf
        · exact h1

theorem newConfig_fold_keys_nodup :
    ∀ (files : List String) (m : List (String × Option (List (List Char × ReadErr)))),
      (m.map Prod.fst).Nodup →
      ((files.foldl (fun m file => alInsert m file none) m).map Prod.fst).Nodup := by
  intro files
  induction files with
  | nil => intro m hm; exact hm
  | cons f rest ih =>
    intro m hm
    refine ih (alInsert m f none) ?_
    cases hlk : alLookup m f with
    | some v => rw [alInsert_keys_of_isSome m f none (by simp [hlk])]; exact hm
    | none =>
      rw [alInsert_keys_of_none m f none hlk]
      have hnm : f ∉ m.map Prod.fst := by
        intro hmem
        have := (alLookup_isSome_iff_mem m f).mpr hmem
        rw [hlk] at this
        simp at this
      simp [List.nodup_append, hm, hnm]

theorem newConfig_lookup_of_mem {files : List String} {p : String} (h : p ∈ files) :
    alLookup (NewConfig files).conf_files p = some none := by
  have hsome := newConfig_fold_isSome files [] p (Or.inr h)
  obtain ⟨v, hv⟩ := Option.isSome_iff_exists.mp hsome
  have hvn : v = none := by
    refine newConfig_fold_values_none files [] (by simp) (p, v) ?_
    exact alLookup_mem hv
  rw [NewConfig] at *
  rw [hv, hvn]

theorem newConfig_isOpenH (files : List String) (p : String) :
    isOpenH (NewConfig files) p = false := by
  unfold isOpenH
  cases hlk : alLookup (NewConfig files).conf_files p with
  | none => rfl
  | some v =>
    have hvn : v = none := by
      refine newConfig_fold_values_none files [] (by simp) (p, v) ?_
      exact alLookup_mem hlk
    rw [hvn]

theorem newConfig_WF (files : List String) : WF (NewConfig files) := by
  intro h
  simp [NewConfig] at h

theorem newConfig_fieldVal (files : List String) (s k : List Char) :
    fieldVal (NewConfig files) s k = none := rfl

theorem newConfig_Inv (files : List String) : Inv (NewConfig files) := by
  constructor
  · intro p hp
    simp [NewConfig] at hp
  · intro p hp
    simp [NewConfig] at hp

/-! Lemmas about `finalize`. -/

theorem finalize_events_closed :
    ∀ (o : List String) (c : Config) (e : Event),
      e ∈ finalize c o → ∃ p, e = .closed p := by
  intro o
  induction o with
  | nil => intro c e he; simp [finalize] at he
  | cons fpath rest ih =>
    intro c e he
    cases hlook : alLookup c.conf_files fpath with
    | none =>
      simp only [finalize, hlook] at he
      exact ih c e he
    | some ho =>
      cases ho with
      | none =>
        simp only [finalize, hlook] at he
        exact ih c e he
      | some r =>
        simp only [finalize, hlook] at he
        rcases List.mem_cons.mp he with h1 | h1
        · exact ⟨fpath, h1⟩
        · exact ih c e h1

theorem finalize_count_closed :
    ∀ (o : List String) (c : Config) (p : String),
      countN (Event.closed p) (finalize c o) =
        if isOpenH c p then countN p o else 0 := by
  intro o
  induction o with
  | nil =>
    intro c p
    simp only [finalize, countN]
    cases isOpenH c p <;> simp [countN]
  | cons fpath rest ih =>
    intro c p
    by_cases hp : p = fpath
    · subst hp
      cases hlook : alLookup c.conf_files p with
      | none =>
        have hopen : isOpenH c p = false := by simp [isOpenH, hlook]
        simp only [finalize, hlook, ih, hopen]
        simp
      | some ho =>
        cases ho with
        | none =>
          have hopen : isOpenH c p = false := by simp [isOpenH, hlook]
          simp only [finalize, hlook, ih, hopen]
          simp
        | some r =>
          have hopen : isOpenH c p = true := by simp [isOpenH, hlook]
          simp only [finalize, hlook, countN, ih, hopen]
          simp [countN]
    · have hne1 : ¬ Event.closed fpath = Event.closed p := by
        intro he
        exact hp (Event.closed.inj he).symm
      have hne2 : ¬ fpath = p := fun he => hp he.symm
      cases hlook : alLookup c.conf_files fpath with
      | none =>
        simp only [finalize, hlook, ih, countN]
        rw [if_neg hne2, Nat.zero_add]
      | some ho =>
        cases ho with
        | none =>
          simp only [finalize, hlook, ih, countN]
          rw [if_neg hne2, Nat.zero_add]
        | some r =>
          simp only [finalize, hlook, countN, ih]
          rw [if_neg hne1, if_neg hne2, Nat.zero_add, Nat.zero_add]

theorem isOpenH_congr {c1 c2 : Config} (h : c1.conf_files = c2.conf_files) (p : String) :
    isOpenH c1 p = isOpenH c2 p := by
  unfold isOpenH
  rw [h]

theorem parse_files_loop_conf_files :
    ∀ (order : List String) (c : Config),
      (parseFilesLoop c order).2.conf_files = c.conf_files := by
  intro order
  induction order with
  | nil => intro c; rfl
  | cons fname rest ih =>
    intro c
    cases hf : Option.join (alLookup c.conf_files fname) with
    | none =>
      simp only [parseFilesLoop, hf, _parse_file]
      exact ih c
    | some reads =>
      simp only [parseFilesLoop, hf, _parse_file]
      have hloop : ∀ (reads2 : List (List Char × ReadErr)) (c0 : Config),
          (_parse_file_loop fname c0 reads2).2.conf_files = c0.conf_files := by
        intro reads2
        induction reads2 with
        | nil => intro c0; rfl
        | cons r rest2 ih2 =>
          intro c0
          obtain ⟨line, rerr⟩ := r
          cases rerr with
          | fail msg => rfl
          | noErr =>
            simp only [_parse_file_loop]
            cases hpl : _parse_line c0 line with
            | err e => simp only [hpl]
            | panicked m => simp only [hpl]
            | ok c1 =>
              simp only [hpl]
              exact (ih2 c1).trans (parse_line_ok_cases hpl).1
          | eof =>
            simp only [_parse_file_loop]
            cases hpl : _parse_line c0 line with
            | err e => simp only [hpl]
            | panicked m => simp only [hpl]
            | ok c1 =>
              simp only [hpl]
              exact (parse_line_ok_cases hpl).1
      rcases hl : _parse_file_loop fname c reads with ⟨out, c1⟩
      have hc1 : c1.conf_files = c.conf_files := by
        have := hloop reads c
        rw [hl] at this
        exact this
      cases out with
      | ok =>
        simp only [hl]
        exact (ih c1).trans hc1
      | err e => simp only [hl]; exact hc1
      | panicked m => simp only [hl]; exact hc1

/-! Further helper lemmas about single lines and lookups. -/

theorem parse_line_blank {c : Config} {l : List Char} (h : trimSpace l = []) :
    _parse_line c l = .ok c := by
  by_cases h0 : l.length > 0
  · simp only [_parse_line, if_pos h0]
    rw [if_neg (by rw [h]; simp : ¬ (trimSpace l).length > 0)]
  · simp only [_parse_line, if_neg h0]

theorem stripQuotes_isSome {v : List Char} (h1 : v ≠ []) (h2 : v ≠ ['"']) :
    (stripQuotes v).isSome = true := by
  unfold stripQuotes
  rw [if_neg (by simp [h1] : ¬ v.length = 0)]
  by_cases hq : v.get? 0 = some '"' ∧ v.get? (v.length - 1) = some '"'
  · rw [if_pos hq]
    have hlen : ¬ v.length = 1 := by
      intro hl
      apply h2
      cases v with
      | nil => simp at hl
      | cons a t =>
        cases t with
        | nil =>
          have ha := hq.1
          simp only [List.get?] at ha
          rw [Option.some.inj ha]
        | cons b t2 => simp at hl
    rw [if_neg hlen]
    rfl
  · rw [if_neg hq]
    rfl

theorem parse_line_outside_section {c : Config} {l : List Char}
    (hinsec : c._pstate.in_sec = false)
    (hne : (trimSpace l).length ≠ 0)
    (hnh : ¬ ((trimSpace l).get? 0 = some '[' ∧
      (trimSpace l).get? ((trimSpace l).length - 1) = some ']'))
    (hpos : 0 < goStringsIndex (trimSpace l) '=')
    (hkey : (trimSpace ((trimSpace l).take
      (goStringsIndex (trimSpace l) '=').toNat)).length ≠ 0)
    (hv1 : trimSpace ((trimSpace l).drop
      ((goStringsIndex (trimSpace l) '=').toNat + 1)) ≠ [])
    (hv2 : trimSpace ((trimSpace l).drop
      ((goStringsIndex (trimSpace l) '=').toNat + 1)) ≠ ['"']) :
    _parse_line c l =
      .err { line := trimSpace l, error := "configuration line without section" } := by
  have hl0 : l.length > 0 := by
    cases l with
    | nil => rw [trimSpace_nil] at hne; simp at hne
    | cons a t => simp
  have hl1 : (trimSpace l).length > 0 := Nat.pos_of_ne_zero hne
  obtain ⟨value, hval⟩ := Option.isSome_iff_exists.mp (stripQuotes_isSome hv1 hv2)
  simp only [_parse_line]
  rw [if_pos hl0, if_pos hl1, if_neg hnh,
    if_neg (by omega : ¬ goStringsIndex (trimSpace l) '=' ≤ 0), if_neg hkey, hval]
  simp [hinsec]

theorem Get_eq_ok_of_fieldVal {c : Config} {s k v : List Char}
    (h : fieldVal c s k = some v) : Get c s k = .ok v := by
  unfold fieldVal at h
  cases hs : alLookup c.sections s with
  | none => rw [hs] at h; simp at h
  | some S =>
    rw [hs] at h
    simp only [Option.some_bind] at h
    simp [Get, hs, h]

/-! Claim theorems. -/

/-- C2: the claim says a key/value line whose trimmed value is the single
character `"` parses successfully and stores the value unchanged. The code
violates this: with the value `"` the boundary test `value[0] == '"' &&
value[len(value)-1] == '"'` passes (both indices are 0), and the slice
`value[1:0]` is a runtime slice-bounds panic. This theorem evaluates the
code at the failing input `k = "` inside an active section (a panic, not a
success), and at `k = ""` and `k = "hi"` (length at least 2, where the
quote pair is indeed stripped). -/
theorem c2_lone_quote_value_panics :
    _parse_line cActive (chars "k = \"") = .panicked "runtime error: out of range" ∧
    _parse_line cActive (chars "k = \"\"") =
      .ok { conf_files := []
            sections := [(chars "s", { name := chars "s", fields := [(chars "k", [])] })]
            _pstate := { in_sec := true, cur_sec := some (chars "s") } } ∧
    _parse_line cActive (chars "k = \"hi\"") =
      .ok { conf_files := []
            sections := [(chars "s",
              { name := chars "s", fields := [(chars "k", chars "hi")] })]
            _pstate := { in_sec := true, cur_sec := some (chars "s") } } := by
  refine ⟨?_, ?_, ?_⟩ <;> rfl

/-- C10: the claim says single-line parsing is total: a key/value line
whose value trims to the empty string (such as `k =`) is handled without
out-of-range indexing. The code violates this: `value[0]` on the empty
value is an index-out-of-range panic. This theorem evaluates the code at
the failing input `k =` inside an active section (a panic), and at the
normal line `k = v` for contrast. -/
theorem c10_empty_value_panics :
    _parse_line cActive (chars "k =") = .panicked "runtime error: out of range" ∧
    _parse_line cActive (chars "k = v") =
      .ok { conf_files := []
            sections := [(chars "s",
              { name := chars "s", fields := [(chars "k", chars "v")] })]
            _pstate := { in_sec := true, cur_sec := some (chars "s") } } := by
  refine ⟨?_, ?_⟩ <;> rfl

/-- C7, counterexample: the header `[   ]` (interior of three spaces) does
register a section, named by the raw three-space string, whose name trims
to empty — the code never trims the bracket interior, so the claim that
every registered section name is non-empty after trimming is false. -/
theorem c7_counterexample :
    _parse_line (NewConfig []) (chars "[   ]") =
      .ok { conf_files := []
            sections := [(chars "   ", NewSection (chars "   "))]
            _pstate := { in_sec := true, cur_sec := some (chars "   ") } } ∧
    trimSpace (chars "   ") = [] := by
  refine ⟨?_, ?_⟩ <;> rfl

/-- C7, amended: after every successfully parsed line, every registered
section name is a non-empty raw string (it may be all whitespace, since
the bracket interior is not trimmed) and every stored key is non-empty
after trimming; the invariant holds initially and is preserved by every
successful `_parse_line` step. -/
theorem c7_amended_nonempty_names_keys :
    (∀ files, Inv (NewConfig files)) ∧
    (∀ (c : Config) (l : List Char) (c' : Config),
      Inv c → _parse_line c l = .ok c' → Inv c') :=
  ⟨newConfig_Inv, fun _ _ _ hi h => (parse_line_ok_cases h).2.2.2 hi⟩

/-- C7, witness: the amended invariant applied to the initial state and to
one concrete successful parse step. -/
theorem c7_amended_nonempty_names_keys_witness :
    Inv (NewConfig ["f"]) ∧ Inv cActive :=
  ⟨c7_amended_nonempty_names_keys.1 ["f"],
   c7_amended_nonempty_names_keys.2 (NewConfig []) (chars "[s]") cActive
     (newConfig_Inv []) (by rfl)⟩

/-- C9, counterexample: the claim says a line delivered together with a
non-EOF, non-nil read error is still parsed before the error is handled.
The code checks `err == nil || err == io.EOF` BEFORE parsing, so such a
line is discarded unparsed: from a state with section `s` active, reading
`a = 1` together with a read failure returns the I/O error with the store
unchanged, although parsing that line would have stored `a`. -/
theorem c9_counterexample :
    _parse_file_loop "f" cActive [(chars "a = 1", .fail "disk error")] =
      (.err (.ioError "disk error"), cActive) ∧
    _parse_line cActive (chars "a = 1") =
      .ok { conf_files := []
            sections := [(chars "s",
              { name := chars "s", fields := [(chars "a", chars "1")] })]
            _pstate := { in_sec := true, cur_sec := some (chars "s") } } ∧
    ({ conf_files := []
       sections := [(chars "s",
         { name := chars "s", fields := [(chars "a", chars "1")] })]
       _pstate := { in_sec := true, cur_sec := some (chars "s") } } : Config) ≠ cActive := by
  refine ⟨rfl, rfl, by decide⟩

/-- C9, amended: a line read together with a nil or EOF error is parsed
(at EOF the loop then stops), while a line delivered together with any
other read error is discarded unparsed and the loop returns that error
with the state unchanged. -/
theorem c9_amended_read_error_discards_line :
    ∀ (fname : String) (c : Config) (line : List Char) (msg : String)
      (rest : List (List Char × ReadErr)),
      (_parse_file_loop fname c ((line, .fail msg) :: rest) =
        (.err (.ioError msg), c)) ∧
      (∀ c', _parse_line c line = .ok c' →
        _parse_file_loop fname c ((line, .eof) :: rest) = (.ok, c')) := by
  intro fname c line msg rest
  constructor
  · rfl
  · intro c' h
    simp only [_parse_file_loop, h]

/-- C9, amended witness: the two clauses at a concrete state and line. -/
theorem c9_amended_read_error_discards_line_witness :
    (_parse_file_loop "f" cActive [(chars "a = 1", .fail "disk error")] =
      (.err (.ioError "disk error"), cActive)) ∧
    (_parse_file_loop "f" cActive [(chars "a = 1", .eof)] =
      (.ok, { conf_files := []
              sections := [(chars "s",
                { name := chars "s", fields := [(chars "a", chars "1")] })]
              _pstate := { in_sec := true, cur_sec := some (chars "s") } })) :=
  ⟨(c9_amended_read_error_discards_line "f" cActive (chars "a = 1") "disk error" []).1,
   (c9_amended_read_error_discards_line "f" cActive (chars "a = 1") "disk error" []).2
     _ (by rfl)⟩

/-- C4: parsing a valid header line `[name]` with non-empty name succeeds;
when a section of that name exists the store is unchanged (the section and
its fields are reused), otherwise exactly the one new empty section is
appended; in both cases that section becomes current, and distinctness of
the registered section names is preserved, so a second section with the
same name never arises. -/
theorem c4_header_idempotent :
    ∀ (c : Config) (line0 name : List Char),
      trimSpace line0 = '[' :: (name ++ [']']) → name ≠ [] →
      _parse_line c line0 =
        .ok { c with
              sections := if (alLookup c.sections name).isSome then c.sections
                          else alInsert c.sections name (NewSection name)
              _pstate := { in_sec := true, cur_sec := some name } } ∧
      ((c.sections.map Prod.fst).Nodup →
        ((if (alLookup c.sections name).isSome then c.sections
          else alInsert c.sections name (NewSection name)).map Prod.fst).Nodup) := by
  intro c line0 name htrim hname
  have hlen0 : line0.length > 0 := by
    cases line0 with
    | nil => rw [trimSpace_nil] at htrim; exact absurd htrim (by simp)
    | cons a t => simp
  have hL : (trimSpace line0).length = name.length + 2 := by rw [htrim]; simp
  have hlen1 : (trimSpace line0).length > 0 := by omega
  have hget0 : (trimSpace line0).get? 0 = some '[' := by rw [htrim]; rfl
  have hgetlast : (trimSpace line0).get? ((trimSpace line0).length - 1) = some ']' := by
    rw [htrim]
    have hidx : ('[' :: (name ++ [']'])).length - 1 = name.length + 1 := by simp
    rw [hidx]
    simp
  have hsec : ((trimSpace line0).drop 1).take ((trimSpace line0).length - 2) = name := by
    rw [htrim]
    have hidx : ('[' :: (name ++ [']'])).length - 2 = name.length := by simp
    rw [hidx]
    simp
  constructor
  · simp only [_parse_line, if_pos hlen0, if_pos hlen1,
      if_pos (And.intro hget0 hgetlast)]
    rw [hsec]
    rw [if_neg (by simp [hname] : ¬ name.length = 0)]
    by_cases hex : (alLookup c.sections name).isSome = true
    · rw [if_pos hex, if_pos hex]
    · rw [if_neg hex, if_neg hex]
  · intro hnd
    by_cases hex : (alLookup c.sections name).isSome = true
    · rw [if_pos hex]; exact hnd
    · rw [if_neg hex]
      have hnone := Option.not_isSome_iff_eq_none.mp hex
      rw [alInsert_keys_of_none _ _ _ hnone]
      have hnm : name ∉ c.sections.map Prod.fst := by
        intro hmem
        exact hex ((alLookup_isSome_iff_mem _ _).mpr hmem)
      simp [List.nodup_append, hnd, hnm]

/-- C4, witness: a fresh header and a repeated header at a concrete store. -/
theorem c4_header_idempotent_witness :
    trimSpace (chars "[s]") = '[' :: (chars "s" ++ [']']) ∧ chars "s" ≠ [] ∧
    (_parse_line cActive (chars "[s]") =
      .ok { cActive with
            sections := if (alLookup cActive.sections (chars "s")).isSome
                        then cActive.sections
                        else alInsert cActive.sections (chars "s") (NewSection (chars "s"))
            _pstate := { in_sec := true, cur_sec := some (chars "s") } } ∧
     ((cActive.sections.map Prod.fst).Nodup →
       ((if (alLookup cActive.sections (chars "s")).isSome then cActive.sections
         else alInsert cActive.sections (chars "s")
           (NewSection (chars "s"))).map Prod.fst).Nodup)) :=
  ⟨by decide, by decide,
   c4_header_idempotent cActive (chars "[s]") (chars "s") (by decide) (by decide)⟩

/-- C6: `Get` fails with `NoSuchSection` exactly when no entry of the
store carries the requested section name, fails with `NoSuchKey` exactly
when the section exists but none of its fields carries the requested key,
and otherwise returns the stored value; membership is exact equality of
the name and key strings. -/
theorem c6_get_exact_lookup :
    ∀ (c : Config) (sec key : List Char),
      (c.sections.map Prod.fst).Nodup →
      (∀ p ∈ c.sections, (p.2.fields.map Prod.fst).Nodup) →
      ((Get c sec key = .noSuchSection sec ↔ ∀ p ∈ c.sections, p.1 ≠ sec) ∧
       (Get c sec key = .noSuchKey sec key ↔
         ∃ S, (sec, S) ∈ c.sections ∧ ∀ q ∈ S.fields, q.1 ≠ key) ∧
       (∀ v, Get c sec key = .ok v ↔
         ∃ S, (sec, S) ∈ c.sections ∧ (key, v) ∈ S.fields)) := by
  intro c sec key hnd hndf
  cases hs : alLookup c.sections sec with
  | none =>
    have hget : Get c sec key = .noSuchSection sec := by simp [Get, hs]
    refine ⟨⟨fun _ => (alLookup_eq_none_iff _ _).mp hs, fun _ => hget⟩,
      ⟨?_, ?_⟩, ?_⟩
    · intro hk
      rw [hget] at hk
      exact GetResult.noConfusion hk
    · rintro ⟨S, hS, -⟩
      exfalso
      have hlk := mem_alLookup hnd hS
      rw [hs] at hlk
      exact Option.noConfusion hlk
    · intro v
      refine ⟨fun hv => ?_, ?_⟩
      · rw [hget] at hv
        exact GetResult.noConfusion hv
      · rintro ⟨S, hS, -⟩
        exfalso
        have hlk := mem_alLookup hnd hS
        rw [hs] at hlk
        exact Option.noConfusion hlk
  | some S =>
    have hmemS : (sec, S) ∈ c.sections := alLookup_mem hs
    cases hf : alLookup S.fields key with
    | none =>
      have hget : Get c sec key = .noSuchKey sec key := by simp [Get, hs, hf]
      refine ⟨⟨?_, ?_⟩,
        ⟨fun _ => ⟨S, hmemS, (alLookup_eq_none_iff _ _).mp hf⟩, fun _ => hget⟩, ?_⟩
      · intro hk
        rw [hget] at hk
        exact GetResult.noConfusion hk
      · intro hall
        exfalso
        have hn := (alLookup_eq_none_iff c.sections sec).mpr hall
        rw [hs] at hn
        exact Option.noConfusion hn
      · intro v
        refine ⟨fun hv => ?_, ?_⟩
        · rw [hget] at hv
          exact GetResult.noConfusion hv
        · rintro ⟨S', hS', hkv⟩
          exfalso
          have hlk := mem_alLookup hnd hS'
          rw [hs] at hlk
          have hSS : S' = S := (Option.some.inj hlk).symm
          subst hSS
          have hval := mem_alLookup (hndf (sec, S') hS') hkv
          rw [hf] at hval
          exact Option.noConfusion hval
    | some v0 =>
      have hget : Get c sec key = .ok v0 := by simp [Get, hs, hf]
      have hkv0 : (key, v0) ∈ S.fields := alLookup_mem hf
      refine ⟨⟨?_, ?_⟩, ⟨?_, ?_⟩, ?_⟩
      · intro hk
        rw [hget] at hk
        exact GetResult.noConfusion hk
      · intro hall
        exfalso
        have hn := (alLookup_eq_none_iff c.sections sec).mpr hall
        rw [hs] at hn
        exact Option.noConfusion hn
      · intro hk
        rw [hget] at hk
        exact GetResult.noConfusion hk
      · rintro ⟨S', hS', hallk⟩
        exfalso
        have hlk := mem_alLookup hnd hS'
        rw [hs] at hlk
        have hSS : S' = S := (Option.some.inj hlk).symm
        subst hSS
        exact hallk (key, v0) hkv0 rfl
      · intro v
        refine ⟨fun hv => ?_, ?_⟩
        · rw [hget] at hv
          have hvv : v0 = v := GetResult.ok.inj hv
          subst hvv
          exact ⟨S, hmemS, hkv0⟩
        · rintro ⟨S', hS', hkv⟩
          have hlk := mem_alLookup hnd hS'
          rw [hs] at hlk
          have hSS : S' = S := (Option.some.inj hlk).symm
          subst hSS
          have hval := mem_alLookup (hndf (sec, S') hS') hkv
          rw [hf] at hval
          have hvv : v0 = v := Option.some.inj hval
          subst hvv
          exact hget

/-- C6, witness: the characterisation applied to a concrete store. -/
theorem c6_get_exact_lookup_witness :
    (cStore.sections.map Prod.fst).Nodup ∧
    Get cStore (chars "s") (chars "k") = .ok (chars "1") :=
  ⟨by decide,
   ((c6_get_exact_lookup cStore (chars "s") (chars "k") (by decide) (by decide)).2.2
      (chars "1")).mpr
     ⟨{ name := chars "s", fields := [(chars "k", chars "1")] }, by decide, by decide⟩⟩

/-- C3: during a successful `Parse_conf` run started from a fresh
`NewConfig` (over any map-iteration orders), if the trace of assignment
events contains assignments to (`sec`, `key`) and the last of them carries
value `v`, then `Get sec key` on the resulting configuration returns `v`:
last write wins, and earlier duplicates are silently overwritten rather
than reported. -/
theorem c3_last_write_wins :
    ∀ (files : List String) (fs : String → Option (List (List Char × ReadErr)))
      (o1 o2 o3 : List String) (sec key v : List Char),
      (Parse_conf (NewConfig files) fs o1 o2 o3).1 = .ok →
      lastAssign (ParseAssignEvents (NewConfig files) fs o1 o2) sec key = some v →
      Get (Parse_conf (NewConfig files) fs o1 o2 o3).2.1 sec key = .ok v := by
  intro files fs o1 o2 o3 sec key v hok hla
  rcases hopen : _open_files fs (NewConfig files) o1 with ⟨r1, c1, ev1⟩
  cases r1 with
  | some e =>
    exfalso
    simp only [Parse_conf, hopen] at hok
    exact Outcome.noConfusion hok
  | none =>
    have hev : ParseAssignEvents (NewConfig files) fs o1 o2 = filesEvents c1 o2 := by
      simp only [ParseAssignEvents, hopen]
    rcases hpl : parseFilesLoop c1 o2 with ⟨out, c2⟩
    have hout1 : (Parse_conf (NewConfig files) fs o1 o2 o3).1 = out := by
      simp only [Parse_conf, hopen, hpl]
    have hout2 : (Parse_conf (NewConfig files) fs o1 o2 o3).2.1 = c2 := by
      simp only [Parse_conf, hopen, hpl]
    rw [hout1] at hok
    subst hok
    have hw1 : WF c1 := by
      intro hin
      have hps : c1._pstate = (NewConfig files)._pstate := by
        have hop := (open_files_sections fs o1 (NewConfig files)).2
        rw [hopen] at hop
        exact hop
      rw [hps] at hin
      simp [NewConfig] at hin
    obtain ⟨hw2, hcf2, hfv2⟩ := parse_files_loop_ok hw1 hpl
    have hsec1 : c1.sections = [] := by
      have hop := (open_files_sections fs o1 (NewConfig files)).1
      rw [hopen] at hop
      exact hop
    have hfv1 : fieldVal c1 sec key = none := by
      unfold fieldVal
      rw [hsec1]
      rfl
    rw [hev] at hla
    have hfv : fieldVal c2 sec key = some v := by
      rw [hfv2 sec key, hla, hfv1]
      rfl
    rw [hout2]
    exact Get_eq_ok_of_fieldVal hfv

/-- C3, witness: `a = 1` then `a = 2` in section `s`, over one file;
`Get` returns `2`. -/
theorem c3_last_write_wins_witness :
    (Parse_conf (NewConfig ["f"]) fsDup ["f"] ["f"] ["f"]).1 = .ok ∧
    lastAssign (ParseAssignEvents (NewConfig ["f"]) fsDup ["f"] ["f"])
      (chars "s") (chars "a") = some (chars "2") ∧
    Get (Parse_conf (NewConfig ["f"]) fsDup ["f"] ["f"] ["f"]).2.1
      (chars "s") (chars "a") = .ok (chars "2") :=
  ⟨rfl, rfl,
   c3_last_write_wins ["f"] fsDup ["f"] ["f"] ["f"]
     (chars "s") (chars "a") (chars "2") rfl rfl⟩

/-- C5, counterexample: a key/value line can occur before any section
header and yet `Parse_conf` does not fail with the line-outside-section
error: the single line `k =` (empty value) makes the code panic on
`value[0]` before the section check is reached. -/
theorem c5_counterexample :
    (Parse_conf (NewConfig ["f"]) fsEmptyVal ["f"] ["f"] ["f"]).1 =
      .panicked "runtime error: out of range" ∧
    (Parse_conf (NewConfig ["f"]) fsEmptyVal ["f"] ["f"] ["f"]).1 ≠
      .err (.confFile "f"
        { line := chars "k =", error := "configuration line without section" }) := by
  exact ⟨rfl, by decide⟩

/-- C5, amended: when the first file in the parse iteration order starts
(after blank lines) with a key/value line whose trimmed value is neither
empty nor the lone character `"` (so the quote-stripping code cannot
panic), and no header has been seen, `Parse_conf` fails with exactly the
`ConfFileError` wrapping the line-outside-section `ConfLineError` for that
file and line, regardless of the remaining reads and remaining files:
parsing stops at that first failing line. -/
theorem c5_amended_line_outside_section :
    ∀ (files : List String) (fs : String → Option (List (List Char × ReadErr)))
      (o1 o3 : List String) (fname : String) (rest2 : List String)
      (blanks : List (List Char)) (kv : List Char)
      (readsRest : List (List Char × ReadErr)),
      (∀ p, (fs p).isSome = true) →
      fname ∈ files → fname ∈ o1 →
      fs fname = some (blanks.map (fun b => (b, ReadErr.noErr)) ++
        (kv, ReadErr.noErr) :: readsRest) →
      (∀ b ∈ blanks, trimSpace b = []) →
      (trimSpace kv).length ≠ 0 →
      ¬ ((trimSpace kv).get? 0 = some '[' ∧
        (trimSpace kv).get? ((trimSpace kv).length - 1) = some ']') →
      0 < goStringsIndex (trimSpace kv) '=' →
      (trimSpace ((trimSpace kv).take (goStringsIndex (trimSpace kv) '=').toNat)).length ≠ 0 →
      trimSpace ((trimSpace kv).drop ((goStringsIndex (trimSpace kv) '=').toNat + 1)) ≠ [] →
      trimSpace ((trimSpace kv).drop ((goStringsIndex (trimSpace kv) '=').toNat + 1)) ≠ ['"'] →
      (Parse_conf (NewConfig files) fs o1 (fname :: rest2) o3).1 =
        .err (.confFile fname
          { line := trimSpace kv, error := "configuration line without section" }) := by
  intro files fs o1 o3 fname rest2 blanks kv readsRest
  intro hfs hmemf hmem1 hcontent hblanks h1 h2 h3 h4 h5 h6
  rcases hopen : _open_files fs (NewConfig files) o1 with ⟨r1, c1, ev1⟩
  have hr1 : r1 = none := by
    have hop := open_files_success fs hfs o1 (NewConfig files)
    rw [hopen] at hop
    exact hop
  subst hr1
  have hinsec : c1._pstate.in_sec = false := by
    have hop := (open_files_sections fs o1 (NewConfig files)).2
    rw [hopen] at hop
    have hps : c1._pstate = (NewConfig files)._pstate := hop
    rw [hps]
    rfl
  have hlookup : alLookup c1.conf_files fname =
      some (some (blanks.map (fun b => (b, ReadErr.noErr)) ++
        (kv, ReadErr.noErr) :: readsRest)) := by
    have hop := open_files_gets fs hfs o1 (NewConfig files) fname _ hmem1
      (newConfig_lookup_of_mem hmemf) hcontent
    rw [hopen] at hop
    exact hop
  have hjoin : Option.join (alLookup c1.conf_files fname) =
      some (blanks.map (fun b => (b, ReadErr.noErr)) ++
        (kv, ReadErr.noErr) :: readsRest) := by
    rw [hlookup]
    rfl
  have hskip : ∀ (bl : List (List Char)) (c0 : Config), (∀ b ∈ bl, trimSpace b = []) →
      _parse_file_loop fname c0 (bl.map (fun b => (b, ReadErr.noErr)) ++
        (kv, ReadErr.noErr) :: readsRest) =
      _parse_file_loop fname c0 ((kv, ReadErr.noErr) :: readsRest) := by
    intro bl
    induction bl with
    | nil => intro c0 _; rfl
    | cons b bt ih =>
      intro c0 hb
      have hbb : trimSpace b = [] := hb b (by simp)
      simp only [List.map_cons, List.cons_append, _parse_file_loop,
        parse_line_blank hbb]
      exact ih c0 (fun x hx => hb x (List.mem_cons_of_mem _ hx))
  simp only [Parse_conf, hopen, parseFilesLoop, hjoin, _parse_file]
  rw [hskip blanks c1 hblanks]
  simp only [_parse_file_loop, parse_line_outside_section hinsec h1 h2 h3 h4 h5 h6]

/-- C5, witness: a blank line followed by `k = v` before any header fails
with the wrapped line-outside-section error. -/
theorem c5_amended_line_outside_section_witness :
    (∀ p, (fsOutside p).isSome = true) ∧
    (Parse_conf (NewConfig ["f"]) fsOutside ["f"] ["f"] ["f"]).1 =
      .err (.confFile "f"
        { line := trimSpace (chars "k = v"),
          error := "configuration line without section" }) :=
  ⟨fun p => rfl,
   c5_amended_line_outside_section ["f"] fsOutside ["f"] ["f"] "f" []
     [chars "  "] (chars "k = v") [([], .eof)]
     (fun p => rfl) (by decide) (by decide) (by rfl) (by decide) (by decide)
     (by decide) (by decide) (by decide) (by decide) (by decide)⟩

/-- C8: over every run of `Parse_conf` from a fresh `NewConfig` — any file
system, any outcome (success, line error, I/O failure, or panic, since the
deferred `finalize` runs on all of them), and any iteration orders, the
close order being some enumeration of the `conf_files` map keys — every
path's open-event count equals its close-event count, and no path is
opened more than once: every opened handle is closed exactly once. -/
theorem c8_handles_closed_exactly_once :
    ∀ (files : List String) (fs : String → Option (List (List Char × ReadErr)))
      (o1 o2 o3 : List String) (p : String),
      o3.Perm ((NewConfig files).conf_files.map Prod.fst) →
      countN (Event.opened p) (Parse_conf (NewConfig files) fs o1 o2 o3).2.2 =
        countN (Event.closed p) (Parse_conf (NewConfig files) fs o1 o2 o3).2.2 ∧
      countN (Event.opened p) (Parse_conf (NewConfig files) fs o1 o2 o3).2.2 ≤ 1 := by
  intro files fs o1 o2 o3 p hperm
  rcases hopen : _open_files fs (NewConfig files) o1 with ⟨r1, c1, ev1⟩
  have hcount1 : countN (Event.opened p) ev1 =
      if isOpenH c1 p && !(isOpenH (NewConfig files) p) then 1 else 0 := by
    have hop := open_files_count fs o1 (NewConfig files) p
    rw [hopen] at hop
    exact hop
  rw [newConfig_isOpenH] at hcount1
  have hcount1' : countN (Event.opened p) ev1 = if isOpenH c1 p then 1 else 0 := by
    rw [hcount1]
    cases isOpenH c1 p <;> simp
  have hev1closed : countN (Event.closed p) ev1 = 0 := by
    apply countN_eq_zero_of_all_ne
    intro e he hce
    have hmem : e ∈ (_open_files fs (NewConfig files) o1).2.2 := by
      rw [hopen]
      exact he
    obtain ⟨q, hq⟩ := open_files_events_opened fs o1 (NewConfig files) e hmem
    rw [hce] at hq
    exact Event.noConfusion hq
  have hkeys : c1.conf_files.map Prod.fst = (NewConfig files).conf_files.map Prod.fst := by
    have hop := open_files_keys fs o1 (NewConfig files)
    rw [hopen] at hop
    exact hop
  have hnodupkeys : ((NewConfig files).conf_files.map Prod.fst).Nodup :=
    newConfig_fold_keys_nodup files [] (by simp)
  have ho3nodup : o3.Nodup := (List.Perm.nodup_iff hperm).mpr hnodupkeys
  have main : ∀ (cF : Config), cF.conf_files = c1.conf_files →
      countN (Event.opened p) (ev1 ++ finalize cF o3) =
        countN (Event.closed p) (ev1 ++ finalize cF o3) ∧
      countN (Event.opened p) (ev1 ++ finalize cF o3) ≤ 1 := by
    intro cF hcF
    have hopeneq : isOpenH cF p = isOpenH c1 p := isOpenH_congr hcF p
    have hfinopened : countN (Event.opened p) (finalize cF o3) = 0 := by
      apply countN_eq_zero_of_all_ne
      intro e he hce
      obtain ⟨q, hq⟩ := finalize_events_closed o3 cF e he
      rw [hce] at hq
      exact Event.noConfusion hq
    have hfinclosed : countN (Event.closed p) (finalize cF o3) =
        if isOpenH c1 p then countN p o3 else 0 := by
      rw [finalize_count_closed o3 cF p, hopeneq]
    rw [countN_append, countN_append, hcount1', hev1closed, hfinopened, hfinclosed]
    cases hopc : isOpenH c1 p with
    | false => simp
    | true =>
      have hmem : p ∈ c1.conf_files.map Prod.fst := by
        apply (alLookup_isSome_iff_mem _ _).mp
        unfold isOpenH at hopc
        cases hlk : alLookup c1.conf_files p with
        | none => rw [hlk] at hopc; exact Bool.noConfusion hopc
        | some ho =>
          cases ho with
          | none => rw [hlk] at hopc; exact Bool.noConfusion hopc
          | some r => simp [hlk]
      rw [hkeys] at hmem
      have hmem3 : p ∈ o3 := (List.Perm.mem_iff hperm).mpr hmem
      rw [countN_eq_one_of_nodup_mem ho3nodup hmem3]
      simp
  cases r1 with
  | some e =>
    have htr : (Parse_conf (NewConfig files) fs o1 o2 o3).2.2 =
        ev1 ++ finalize c1 o3 := by
      simp only [Parse_conf, hopen]
    rw [htr]
    exact main c1 rfl
  | none =>
    rcases hpl : parseFilesLoop c1 o2 with ⟨out, c2⟩
    have htr : (Parse_conf (NewConfig files) fs o1 o2 o3).2.2 =
        ev1 ++ finalize c2 o3 := by
      simp only [Parse_conf, hopen, hpl]
    rw [htr]
    refine main c2 ?_
    have hcf := parse_files_loop_conf_files o2 c1
    rw [hpl] at hcf
    exact hcf

/-- C8, witness: two files opened and closed once each. -/
theorem c8_handles_closed_exactly_once_witness :
    (["f", "g"] : List String).Perm ((NewConfig ["f", "g"]).conf_files.map Prod.fst) ∧
    (countN (Event.opened "f")
        (Parse_conf (NewConfig ["f", "g"]) fsEmpty ["f", "g"] ["f", "g"] ["f", "g"]).2.2 =
      countN (Event.closed "f")
        (Parse_conf (NewConfig ["f", "g"]) fsEmpty ["f", "g"] ["f", "g"] ["f", "g"]).2.2 ∧
     countN (Event.opened "f")
        (Parse_conf (NewConfig ["f", "g"]) fsEmpty ["f", "g"] ["f", "g"] ["f", "g"]).2.2 ≤ 1) :=
  ⟨by decide,
   c8_handles_closed_exactly_once ["f", "g"] fsEmpty ["f", "g"] ["f", "g"] ["f", "g"] "f"
     (by decide)⟩

/-- C1: the claim says files are opened and parsed in exactly the
caller-supplied list order. The code iterates the `conf_files` Go map,
whose iteration order is unspecified, so the order of a run is an
arbitrary enumeration of the map keys, not the supplied list: with files
`[a, b]` (`a` = `[s]`, `b` = `k = v`), the enumeration `[a, b]` makes
`Parse_conf` succeed while the equally legitimate enumeration `[b, a]`
makes it fail with a line-outside-section error for `b` — cross-file
effects do not follow the supplied ordering. -/
theorem c1_parse_order_not_list_order :
    (["b", "a"] : List String).Perm ((NewConfig ["a", "b"]).conf_files.map Prod.fst) ∧
    (Parse_conf (NewConfig ["a", "b"]) fsAB ["a", "b"] ["a", "b"] ["a", "b"]).1 = .ok ∧
    (Parse_conf (NewConfig ["a", "b"]) fsAB ["a", "b"] ["b", "a"] ["a", "b"]).1 =
      .err (.confFile "b"
        { line := chars "k = v", error := "configuration line without section" }) := by
  refine ⟨by decide, rfl, rfl⟩

end GowebConfig
